import Mathlib

/-!
Shallow embedding of `src/main.py` (an in-memory admission queue):

* `Resources` — the `@dataclass Resources` with three `int` fields.
  Python integers are unbounded, so each field is modelled as `Int`.
* `Resources.lt` — `Resources.__lt__`: comparison of the sums of the
  field tuples (`sum(astuple(self)) < sum(astuple(other))`).
* `Resources.satisfy` — `Resources.satisfy`: componentwise `<=`
  (`all(map(le, astuple(self), astuple(available_resources)))`).
* `Task` — the `@dataclass Task`.
* `Task.lt` — `Task.__lt__`: the Python tuple comparison
  `(self.priority, other.resources) < (other.priority, self.resources)`,
  which unfolds to: `self.priority < other.priority`, or the priorities are
  equal and `other.resources < self.resources` (by `Resources.__lt__`).
  (Python first tests `==` on `other.resources`/`self.resources`; structurally
  equal vectors have equal sums, so the test does not change the result.)
* `bisect_right` / `bisect_loop` — CPython's `bisect.bisect_right(a, x)`
  binary search (`while lo < hi: mid = (lo+hi)//2; if x < a[mid]: hi = mid
  else: lo = mid+1; return lo`), written with an explicit fuel argument so
  that it is structurally recursive; `hi - lo` shrinks at every iteration,
  so fuel `a.length` always suffices (proved below in `bisect_loop_congr`).
* `add_task` — `TaskQueue.add_task`, i.e. `insort_right(self.queue, task)`:
  insert at the index computed by `bisect_right`.
* `get_task` — `TaskQueue.get_task`: scan the queue from the back toward
  the front and pop the first task whose `resources.satisfy(available)`;
  return `None` (and leave the queue unchanged) when the queue is empty or
  nothing fits.  The Python loop walks indices `len-1, …, 0` and calls
  `self.queue.pop(i)`; the recursion below prefers a hit in the tail (the
  back portion) over the head, which is the same back-to-front order, and
  returns the remaining queue explicitly since lists are immutable here.

The queue itself (`TaskQueue.queue`) is a Python `list`, modelled as
`List Task`; its state is threaded explicitly through `add_task`/`get_task`.
-/

namespace PQueue

structure Resources where
  ram : Int
  cpu_cores : Int
  gpu_count : Int
deriving DecidableEq, Repr

/-- Python `sum(astuple(self))` for a `Resources` value. -/
def Resources.sumTuple (self : Resources) : Int :=
  self.ram + self.cpu_cores + self.gpu_count

/-- `Resources.__lt__`: magnitude (sum of the three fields) comparison. -/
def Resources.lt (self other : Resources) : Bool :=
  decide (self.sumTuple < other.sumTuple)

/-- `Resources.satisfy`: componentwise `<=` against the available vector. -/
def Resources.satisfy (self available_resources : Resources) : Bool :=
  decide (self.ram ≤ available_resources.ram) &&
  decide (self.cpu_cores ≤ available_resources.cpu_cores) &&
  decide (self.gpu_count ≤ available_resources.gpu_count)

structure Task where
  id : Int
  priority : Int
  resources : Resources
  content : String
  result : String
deriving DecidableEq, Repr

/-- `Task.__lt__`: Python's lexicographic tuple comparison
`(self.priority, other.resources) < (other.priority, self.resources)`. -/
def Task.lt (self other : Task) : Bool :=
  decide (self.priority < other.priority) ||
  (decide (self.priority = other.priority) &&
    Resources.lt other.resources self.resources)

/-- The strict order on tasks, as a proposition. -/
def TaskLT (a b : Task) : Prop := Task.lt a b = true

/-- The non-strict order on tasks (`¬ b < a`); `insort_right` keeps the
queue sorted (non-decreasing) with respect to this relation. -/
def TaskLE (a b : Task) : Prop := Task.lt b a = false

instance : DecidableRel TaskLT := fun a b =>
  inferInstanceAs (Decidable (Task.lt a b = true))

instance : DecidableRel TaskLE := fun a b =>
  inferInstanceAs (Decidable (Task.lt b a = false))

/-- Default value handed to `List.getD`; `bisect_loop` only ever reads
indices `mid < hi ≤ a.length`, so it is never actually used. -/
def dummyTask : Task := ⟨0, 0, ⟨0, 0, 0⟩, "", ""⟩

/-- The `while lo < hi` loop of CPython's `bisect_right`, with fuel. -/
def bisect_loop : Nat → List Task → Task → Nat → Nat → Nat
  | 0, _, _, lo, _ => lo
  | fuel + 1, a, x, lo, hi =>
    if lo < hi then
      let mid := (lo + hi) / 2
      if Task.lt x (a.getD mid dummyTask) then bisect_loop fuel a x lo mid
      else bisect_loop fuel a x (mid + 1) hi
    else lo

/-- `bisect.bisect_right(a, x)` with the default bounds `lo = 0`,
`hi = len(a)`. -/
def bisect_right (a : List Task) (x : Task) : Nat :=
  bisect_loop a.length a x 0 a.length

/-- `TaskQueue.add_task`: `insort_right(self.queue, task)`, i.e. insert
`task` at index `bisect_right queue task` (Python `list.insert`). -/
def add_task (queue : List Task) (task : Task) : List Task :=
  let pos := bisect_right queue task
  queue.take pos ++ task :: queue.drop pos

/-- `TaskQueue.get_task`: scan from the back, pop the first fitting task;
returns the optional task together with the resulting queue. -/
def get_task : List Task → Resources → Option Task × List Task
  | [], _ => (none, [])
  | t :: rest, available_resources =>
    match get_task rest available_resources with
    | (some found, rest') => (some found, t :: rest')
    | (none, _) =>
      if t.resources.satisfy available_resources then (some t, rest)
      else (none, t :: rest)

/-- The composite sort key of a task: priority, then resource magnitude
(the magnitude is compared in reverse). -/
def TaskKey (t : Task) : Int × Int := (t.priority, t.resources.sumTuple)

/-- Two tasks are order-equivalent when neither compares below the other. -/
def TaskEquiv (a b : Task) : Prop := ¬ TaskLT a b ∧ ¬ TaskLT b a

instance : DecidableRel TaskEquiv := fun a b =>
  inferInstanceAs (Decidable (¬ TaskLT a b ∧ ¬ TaskLT b a))

/-- The distinct-key relation used to pin down the sorted arrangement. -/
def KeyNe (a b : Task) : Prop := TaskKey a ≠ TaskKey b

instance : DecidableRel KeyNe := fun a b =>
  inferInstanceAs (Decidable (TaskKey a ≠ TaskKey b))

instance : IsAntisymm Task TaskLT :=
  ⟨fun a b h1 h2 => by
    exfalso
    simp only [TaskLT, Task.lt, Resources.lt, Bool.or_eq_true, Bool.and_eq_true,
      decide_eq_true_iff] at h1 h2
    omega⟩

/-- The eight tasks of `TaskQueueTest.add_tasks`, in the order the test
inserts them. -/
def refTasks : List Task :=
  [⟨1, 1, ⟨3, 1, 2⟩, "", ""⟩,
   ⟨2, 4, ⟨1, 1, 5⟩, "", ""⟩,
   ⟨3, 6, ⟨2, 8, 0⟩, "", ""⟩,
   ⟨4, 6, ⟨8, 1, 0⟩, "", ""⟩,
   ⟨5, 7, ⟨2, 2, 2⟩, "", ""⟩,
   ⟨6, 2, ⟨2, 1, 2⟩, "", ""⟩,
   ⟨7, 7, ⟨6, 6, 6⟩, "", ""⟩,
   ⟨8, 7, ⟨4, 4, 4⟩, "", ""⟩]

/-- The expected arrangement of `refTasks` (id order 1, 6, 2, 3, 4, 7, 8, 5). -/
def sortedRefQueue : List Task :=
  [⟨1, 1, ⟨3, 1, 2⟩, "", ""⟩,
   ⟨6, 2, ⟨2, 1, 2⟩, "", ""⟩,
   ⟨2, 4, ⟨1, 1, 5⟩, "", ""⟩,
   ⟨3, 6, ⟨2, 8, 0⟩, "", ""⟩,
   ⟨4, 6, ⟨8, 1, 0⟩, "", ""⟩,
   ⟨7, 7, ⟨6, 6, 6⟩, "", ""⟩,
   ⟨8, 7, ⟨4, 4, 4⟩, "", ""⟩,
   ⟨5, 7, ⟨2, 2, 2⟩, "", ""⟩]

/-- The reference queue after inserting all eight tasks. -/
def refQueue : List Task := List.foldl add_task [] refTasks

/-- The reference queue after polling with available resources (1, 1, 10). -/
def refQueue1 : List Task := (get_task refQueue ⟨1, 1, 10⟩).2

/-- The reference queue after a further poll with (3, 3, 3). -/
def refQueue2 : List Task := (get_task refQueue1 ⟨3, 3, 3⟩).2

/-- The reference queue after one more poll with (3, 3, 3). -/
def refQueue3 : List Task := (get_task refQueue2 ⟨3, 3, 3⟩).2

/-- Witness data: a task requiring (1, 0, 0) at priority 5. -/
def wTaskA : Task := ⟨1, 5, ⟨1, 0, 0⟩, "", ""⟩

/-- Witness data: an order-equivalent task (same priority, same magnitude)
added after `wTaskA`. -/
def wTaskB : Task := ⟨2, 5, ⟨0, 1, 0⟩, "", ""⟩

/-- Witness data: an available-resources snapshot dominating both witness
tasks. -/
def wAvail : Resources := ⟨1, 1, 1⟩

/-- Counterexample data: a task inserted twice into the same queue. -/
def cexTask : Task := ⟨1, 1, ⟨0, 0, 0⟩, "", ""⟩

/-- Counterexample data: resources dominating `cexTask`'s requirement. -/
def cexAvail : Resources := ⟨0, 0, 0⟩

/-- Reference pair for the magnitude tie: (100, 0, 0). -/
def cexRes1 : Resources := ⟨100, 0, 0⟩

/-- Reference pair for the magnitude tie: (0, 50, 50). -/
def cexRes2 : Resources := ⟨0, 50, 50⟩

/-! ### Arithmetic characterisations of the two task relations -/

theorem taskLT_iff (a b : Task) :
    TaskLT a b ↔ a.priority < b.priority ∨
      (a.priority = b.priority ∧ b.resources.sumTuple < a.resources.sumTuple) := by
  simp [TaskLT, Task.lt, Resources.lt]

theorem taskLE_not_lt (a b : Task) : TaskLE a b ↔ ¬ TaskLT b a := by
  simp [TaskLE, TaskLT]

theorem taskLE_iff (a b : Task) :
    TaskLE a b ↔ a.priority < b.priority ∨
      (a.priority = b.priority ∧ b.resources.sumTuple ≤ a.resources.sumTuple) := by
  rw [taskLE_not_lt, taskLT_iff]
  omega

theorem taskLE_of_not_lt {a b : Task} (h : ¬ TaskLT b a) : TaskLE a b := by
  simpa [TaskLE, TaskLT] using h

theorem not_lt_of_taskLE {a b : Task} (h : TaskLE a b) : ¬ TaskLT b a := by
  simp [TaskLE, TaskLT] at h ⊢
  exact h

theorem taskLE_of_lt {a b : Task} (h : TaskLT a b) : TaskLE a b := by
  rw [taskLT_iff] at h
  rw [taskLE_iff]
  rcases h with h | ⟨h1, h2⟩
  · exact Or.inl h
  · exact Or.inr ⟨h1, le_of_lt h2⟩

theorem taskLE_trans {a b c : Task} (h1 : TaskLE a b) (h2 : TaskLE b c) :
    TaskLE a c := by
  rw [taskLE_iff] at h1 h2 ⊢
  rcases h1 with h1 | ⟨h1, h1'⟩ <;> rcases h2 with h2 | ⟨h2, h2'⟩
  · exact Or.inl (lt_trans h1 h2)
  · exact Or.inl (h2 ▸ h1)
  · exact Or.inl (h1 ▸ h2)
  · exact Or.inr ⟨h1.trans h2, le_trans h2' h1'⟩

theorem taskLT_of_lt_of_le {a b c : Task} (h1 : TaskLT a b) (h2 : TaskLE b c) :
    TaskLT a c := by
  rw [taskLT_iff] at h1 ⊢
  rw [taskLE_iff] at h2
  rcases h1 with h1 | ⟨h1, h1'⟩ <;> rcases h2 with h2 | ⟨h2, h2'⟩
  · exact Or.inl (lt_trans h1 h2)
  · exact Or.inl (h2 ▸ h1)
  · exact Or.inl (h1 ▸ h2)
  · exact Or.inr ⟨h1.trans h2, lt_of_le_of_lt h2' h1'⟩

theorem taskLE_of_le_of_not_lt {a b c : Task} (h1 : TaskLE a b)
    (h2 : ¬ TaskLT c b) : TaskLE a c :=
  taskLE_trans h1 (taskLE_of_not_lt h2)

theorem taskLT_asymm {a b : Task} (h : TaskLT a b) : ¬ TaskLT b a := by
  rw [taskLT_iff] at h ⊢
  omega

/-! ### Correctness of the `bisect_right` binary search -/

theorem bisect_loop_bounds (a : List Task) (x : Task) :
    ∀ fuel lo hi, lo ≤ hi →
      lo ≤ bisect_loop fuel a x lo hi ∧ bisect_loop fuel a x lo hi ≤ hi := by
  intro fuel
  induction fuel with
  | zero => intro lo hi h; simpa [bisect_loop] using h
  | succ fuel ih =>
    intro lo hi h
    by_cases hlt : lo < hi
    · simp only [bisect_loop, if_pos hlt]
      by_cases hmid : Task.lt x (a.getD ((lo + hi) / 2) dummyTask)
      · simp only [if_pos hmid]
        have hb := ih lo ((lo + hi) / 2) (by omega)
        omega
      · simp only [if_neg hmid]
        have hb := ih ((lo + hi) / 2 + 1) hi (by omega)
        omega
    · simp [bisect_loop, if_neg hlt]; omega

theorem bisect_loop_spec (a : List Task) (x : Task) (hs : List.Sorted TaskLE a) :
    ∀ fuel lo hi, hi - lo ≤ fuel → hi ≤ a.length →
      (∀ i (h : i < a.length), i < lo → TaskLE (a.get ⟨i, h⟩) x) →
      (∀ i (h : i < a.length), hi ≤ i → TaskLT x (a.get ⟨i, h⟩)) →
      (∀ i (h : i < a.length), i < bisect_loop fuel a x lo hi →
        TaskLE (a.get ⟨i, h⟩) x) ∧
      (∀ i (h : i < a.length), bisect_loop fuel a x lo hi ≤ i →
        TaskLT x (a.get ⟨i, h⟩)) := by
  intro fuel
  induction fuel with
  | zero =>
    intro lo hi hfuel hlen hlo hhi
    refine ⟨fun i h hi2 => hlo i h (by simpa [bisect_loop] using hi2), ?_⟩
    intro i h hi2
    simp only [bisect_loop] at hi2
    exact hhi i h (by omega)
  | succ fuel ih =>
    intro lo hi hfuel hlen hlo hhi
    by_cases hlt : lo < hi
    · have hmidlen : (lo + hi) / 2 < a.length := by omega
      have hgetD : a.getD ((lo + hi) / 2) dummyTask = a.get ⟨(lo + hi) / 2, hmidlen⟩ := by
        simp [List.getD_eq_getElem?_getD, List.getElem?_eq_getElem hmidlen]
      simp only [bisect_loop, if_pos hlt, hgetD]
      by_cases hmid : Task.lt x (a.get ⟨(lo + hi) / 2, hmidlen⟩)
      · simp only [if_pos hmid]
        refine ih lo ((lo + hi) / 2) (by omega) (by omega) hlo ?_
        intro i h hge
        rcases Nat.eq_or_lt_of_le hge with heq | hgt
        · exact heq ▸ hmid
        · exact taskLT_of_lt_of_le hmid
            (hs.rel_get_of_lt (show (⟨(lo + hi) / 2, hmidlen⟩ : Fin a.length) < ⟨i, h⟩ from hgt))
      · simp only [if_neg hmid]
        have hmidle : TaskLE (a.get ⟨(lo + hi) / 2, hmidlen⟩) x :=
          taskLE_of_not_lt (by simpa [TaskLT] using hmid)
        refine ih ((lo + hi) / 2 + 1) hi (by omega) hlen ?_ hhi
        intro i h hilt
        rcases Nat.eq_or_lt_of_le (Nat.le_of_lt_succ hilt) with heq | hgt
        · exact heq ▸ hmidle
        · exact taskLE_trans
            (hs.rel_get_of_lt (show (⟨i, h⟩ : Fin a.length) < ⟨(lo + hi) / 2, hmidlen⟩ from hgt))
            hmidle
    · simp only [bisect_loop, if_neg hlt]
      exact ⟨fun i h hi2 => hlo i h hi2, fun i h hi2 => hhi i h (by omega)⟩

theorem bisect_right_le_length (a : List Task) (x : Task) :
    bisect_right a x ≤ a.length :=
  (bisect_loop_bounds a x a.length 0 a.length (Nat.zero_le _)).2

theorem bisect_right_spec (a : List Task) (x : Task) (hs : List.Sorted TaskLE a) :
    (∀ i (h : i < a.length), i < bisect_right a x → TaskLE (a.get ⟨i, h⟩) x) ∧
    (∀ i (h : i < a.length), bisect_right a x ≤ i → TaskLT x (a.get ⟨i, h⟩)) :=
  bisect_loop_spec a x hs a.length 0 a.length (by omega) (le_refl _)
    (by omega) (by omega)

/-- If the new task is not below any stored task, `bisect_right` returns the
length of the list, i.e. `insort_right` appends at the very end. -/
theorem bisect_loop_all_le (a : List Task) (x : Task)
    (hall : ∀ i (h : i < a.length), Task.lt x (a.get ⟨i, h⟩) = false) :
    ∀ fuel lo hi, hi - lo ≤ fuel → lo ≤ hi → hi ≤ a.length →
      bisect_loop fuel a x lo hi = hi := by
  intro fuel
  induction fuel with
  | zero =>
    intro lo hi hfuel hle _
    have : lo = hi := by omega
    simp [bisect_loop, this]
  | succ fuel ih =>
    intro lo hi hfuel hle hlen
    by_cases hlt : lo < hi
    · have hmidlen : (lo + hi) / 2 < a.length := by omega
      have hgetD : a.getD ((lo + hi) / 2) dummyTask = a.get ⟨(lo + hi) / 2, hmidlen⟩ := by
        simp [List.getD_eq_getElem?_getD, List.getElem?_eq_getElem hmidlen]
      have hmid : ¬ Task.lt x (a.getD ((lo + hi) / 2) dummyTask) = true := by
        rw [hgetD, hall _ hmidlen]
        simp
      simp only [bisect_loop, if_pos hlt, if_neg hmid]
      exact ih ((lo + hi) / 2 + 1) hi (by omega) (by omega) hlen
    · simp only [bisect_loop, if_neg hlt]
      omega

theorem bisect_right_all_le (a : List Task) (x : Task)
    (hall : ∀ i (h : i < a.length), Task.lt x (a.get ⟨i, h⟩) = false) :
    bisect_right a x = a.length :=
  bisect_loop_all_le a x hall a.length 0 a.length (by omega) (Nat.zero_le _)
    (le_refl _)

/-! ### Properties of `add_task` -/

theorem add_task_perm (queue : List Task) (task : Task) :
    (add_task queue task).Perm (task :: queue) := by
  unfold add_task
  exact List.perm_middle.trans (by rw [List.take_append_drop])

theorem add_task_length (queue : List Task) (task : Task) :
    (add_task queue task).length = queue.length + 1 :=
  (add_task_perm queue task).length_eq

theorem add_task_sorted (queue : List Task) (task : Task)
    (hs : List.Sorted TaskLE queue) : List.Sorted TaskLE (add_task queue task) := by
  obtain ⟨h1, h2⟩ := bisect_right_spec queue task hs
  have hposlen := bisect_right_le_length queue task
  unfold add_task
  rw [List.Sorted, List.pairwise_append]
  refine ⟨hs.sublist (List.take_sublist _ _), ?_, ?_⟩
  · rw [List.pairwise_cons]
    refine ⟨?_, hs.sublist (List.drop_sublist _ _)⟩
    intro b hb
    rw [List.mem_iff_getElem] at hb
    obtain ⟨j, hj, rfl⟩ := hb
    rw [List.getElem_drop]
    have hjlen : bisect_right queue task + j < queue.length := by
      rw [List.length_drop] at hj; omega
    exact taskLE_of_lt (by
      have := h2 (bisect_right queue task + j) hjlen (by omega)
      simpa [List.get_eq_getElem] using this)
  · intro u hu v hv
    rw [List.mem_iff_getElem] at hu
    obtain ⟨i, hi, rfl⟩ := hu
    have hilen : i < queue.length := by
      rw [List.length_take] at hi; omega
    have hipos : i < bisect_right queue task := by
      rw [List.length_take] at hi; omega
    have hle : TaskLE (queue.take (bisect_right queue task))[i] task := by
      rw [List.getElem_take]
      have := h1 i hilen hipos
      simpa [List.get_eq_getElem] using this
    rcases List.mem_cons.mp hv with rfl | hv
    · exact hle
    · rw [List.mem_iff_getElem] at hv
      obtain ⟨j, hj, rfl⟩ := hv
      rw [List.getElem_drop]
      have hjlen : bisect_right queue task + j < queue.length := by
        rw [List.length_drop] at hj; omega
      refine taskLE_trans hle (taskLE_of_lt ?_)
      have := h2 (bisect_right queue task + j) hjlen (by omega)
      simpa [List.get_eq_getElem] using this

/-! ### Properties of `get_task` -/

theorem get_task_cons (t : Task) (rest : List Task) (ar : Resources) :
    get_task (t :: rest) ar =
      match get_task rest ar with
      | (some found, rest') => (some found, t :: rest')
      | (none, _) =>
        if t.resources.satisfy ar = true then (some t, rest)
        else (none, t :: rest) := rfl

theorem get_task_none_satisfy {queue : List Task} {ar : Resources}
    (h : (get_task queue ar).1 = none) :
    ∀ t ∈ queue, t.resources.satisfy ar = false := by
  induction queue with
  | nil => intro t ht; cases ht
  | cons t rest ih =>
    intro u hu
    rcases hq : get_task rest ar with ⟨fst, snd⟩
    cases fst with
    | some found => simp [get_task, hq] at h
    | none =>
      simp only [get_task, hq] at h
      by_cases hsat : t.resources.satisfy ar = true
      · simp [hsat] at h
      · rcases List.mem_cons.mp hu with rfl | hu
        · simpa using hsat
        · exact ih (by simp [hq]) u hu

theorem get_task_none_queue {queue : List Task} {ar : Resources}
    (h : (get_task queue ar).1 = none) : (get_task queue ar).2 = queue := by
  induction queue with
  | nil => rfl
  | cons t rest ih =>
    rcases hq : get_task rest ar with ⟨fst, snd⟩
    cases fst with
    | some found => simp [get_task, hq] at h
    | none =>
      simp only [get_task, hq] at h ⊢
      by_cases hsat : t.resources.satisfy ar = true
      · simp [hsat] at h
      · simp [eq_false_of_ne_true hsat]

theorem get_task_of_all_false {queue : List Task} {ar : Resources}
    (h : ∀ t ∈ queue, t.resources.satisfy ar = false) :
    get_task queue ar = (none, queue) := by
  induction queue with
  | nil => rfl
  | cons t rest ih =>
    have hrest : get_task rest ar = (none, rest) :=
      ih (fun u hu => h u (List.mem_cons_of_mem _ hu))
    simp [get_task, hrest, h t (List.mem_cons_self _ _)]

theorem get_task_some_spec {queue : List Task} {ar : Resources} {t : Task}
    (h : (get_task queue ar).1 = some t) :
    ∃ i, ∃ hi : i < queue.length,
      queue.get ⟨i, hi⟩ = t ∧
      (get_task queue ar).2 = queue.eraseIdx i ∧
      t.resources.satisfy ar = true ∧
      ∀ j, ∀ hj : j < queue.length, i < j →
        (queue.get ⟨j, hj⟩).resources.satisfy ar = false := by
  induction queue with
  | nil => simp [get_task] at h
  | cons u rest ih =>
    rcases hq : get_task rest ar with ⟨fst, snd⟩
    cases fst with
    | some found =>
      simp only [get_task, hq] at h ⊢
      obtain ⟨rfl⟩ : found = t := by simpa using h
      obtain ⟨i, hi, hget, hsnd, hsat, hrest⟩ := ih (by simp [hq])
      rw [hq] at hsnd
      refine ⟨i + 1, by simpa using Nat.succ_lt_succ hi, by simpa using hget,
        by simpa using hsnd, hsat, ?_⟩
      intro j hj hij
      cases j with
      | zero => omega
      | succ j =>
        have hj' : j < rest.length := by simpa using hj
        simpa using hrest j hj' (by omega)
    | none =>
      simp only [get_task, hq] at h ⊢
      by_cases hsat : u.resources.satisfy ar = true
      · simp only [hsat, if_pos rfl] at h ⊢
        obtain ⟨rfl⟩ : u = t := by simpa using h
        refine ⟨0, by simp, by simp, by simp, hsat, ?_⟩
        intro j hj hij
        cases j with
        | zero => omega
        | succ j =>
          have hj' : j < rest.length := by simpa using hj
          simpa using get_task_none_satisfy (by simp [hq]) _
            (rest.get_mem j hj')
      · simp [eq_false_of_ne_true hsat] at h

theorem get_task_some_perm {queue : List Task} {ar : Resources} {t : Task}
    (h : (get_task queue ar).1 = some t) :
    queue.Perm (t :: (get_task queue ar).2) := by
  induction queue with
  | nil => simp [get_task] at h
  | cons u rest ih =>
    rcases hq : get_task rest ar with ⟨fst, snd⟩
    cases fst with
    | some found =>
      rw [get_task_cons, hq] at h ⊢
      simp only at h ⊢
      obtain rfl : found = t := by simpa using h
      have hperm : rest.Perm (found :: snd) := by
        have := ih (by simp [hq])
        rwa [hq] at this
      exact (hperm.cons u).trans (List.Perm.swap found u snd)
    | none =>
      rw [get_task_cons, hq] at h ⊢
      simp only at h ⊢
      by_cases hsat : u.resources.satisfy ar = true
      · rw [if_pos hsat] at h ⊢
        simp only at h ⊢
        obtain rfl : u = t := by simpa using h
        exact List.Perm.refl _
      · rw [if_neg hsat] at h
        simp at h

theorem get_task_sublist (queue : List Task) (ar : Resources) :
    (get_task queue ar).2.Sublist queue := by
  rcases hfst : (get_task queue ar).1 with _ | t
  · rw [get_task_none_queue hfst]
  · obtain ⟨i, hi, _, hsnd, _, _⟩ := get_task_some_spec hfst
    rw [hsnd]
    exact List.eraseIdx_sublist queue i

theorem get_task_sorted (queue : List Task) (ar : Resources)
    (hs : List.Sorted TaskLE queue) : List.Sorted TaskLE (get_task queue ar).2 :=
  hs.sublist (get_task_sublist queue ar)

theorem get_task_all_satisfy_last {queue : List Task} {ar : Resources}
    (hne : queue ≠ [])
    (hall : ∀ t ∈ queue, t.resources.satisfy ar = true) :
    (get_task queue ar).1 = some (queue.getLast hne) := by
  induction queue with
  | nil => exact absurd rfl hne
  | cons u rest ih =>
    cases rest with
    | nil =>
      simp [get_task, hall u (List.mem_cons_self _ _), List.getLast]
    | cons r rs =>
      have hne' : r :: rs ≠ [] := by simp
      have hlast := ih hne' (fun t ht => hall t (List.mem_cons_of_mem _ ht))
      rcases hq : get_task (r :: rs) ar with ⟨fst, snd⟩
      rw [hq] at hlast
      simp only at hlast
      subst hlast
      rw [get_task_cons, hq]
      simp [List.getLast_cons hne']

/-! ### Folding insertions, order-equivalence, and uniqueness of the
sorted arrangement -/

theorem keyNe_symm {a b : Task} (h : KeyNe a b) : KeyNe b a := fun e => h e.symm

theorem taskEquiv_iff (a b : Task) : TaskEquiv a b ↔ TaskKey a = TaskKey b := by
  simp only [TaskEquiv, taskLT_iff, TaskKey, Prod.mk.injEq]
  omega

theorem taskLT_of_le_of_keyNe {a b : Task} (h1 : TaskLE a b) (h2 : KeyNe a b) :
    TaskLT a b := by
  rw [taskLE_iff] at h1
  rw [taskLT_iff]
  rcases h1 with h | ⟨hp, hsle⟩
  · exact Or.inl h
  · refine Or.inr ⟨hp, lt_of_le_of_ne hsle ?_⟩
    intro e
    refine h2 ?_
    simp only [TaskKey, Prod.mk.injEq]
    exact ⟨hp, e.symm⟩

theorem sorted_lt_of_sorted_le {l : List Task} (hs : List.Sorted TaskLE l)
    (hne : l.Pairwise KeyNe) : List.Sorted TaskLT l := by
  induction l with
  | nil => exact List.Pairwise.nil
  | cons t rest ih =>
    rw [List.Sorted, List.pairwise_cons] at hs ⊢
    rw [List.pairwise_cons] at hne
    exact ⟨fun b hb => taskLT_of_le_of_keyNe (hs.1 b hb) (hne.1 b hb),
      ih hs.2 hne.2⟩

theorem foldl_add_task_sorted (ts : List Task) :
    ∀ queue : List Task, List.Sorted TaskLE queue →
      List.Sorted TaskLE (List.foldl add_task queue ts) := by
  induction ts with
  | nil => exact fun queue hq => hq
  | cons t ts ih =>
    intro queue hq
    exact ih (add_task queue t) (add_task_sorted queue t hq)

theorem foldl_add_task_perm (ts : List Task) :
    ∀ queue : List Task, (List.foldl add_task queue ts).Perm (queue ++ ts) := by
  induction ts with
  | nil => intro queue; simp
  | cons t ts ih =>
    intro queue
    have h1 : (List.foldl add_task (add_task queue t) ts).Perm
        (add_task queue t ++ ts) := ih (add_task queue t)
    have h2 : (add_task queue t ++ ts).Perm ((t :: queue) ++ ts) :=
      (add_task_perm queue t).append_right ts
    have h3 : ((t :: queue) ++ ts).Perm (queue ++ t :: ts) :=
      List.perm_middle.symm
    exact (h1.trans h2).trans h3

/-- Inserting a task that is not below any stored task appends it at the
very end of the queue. -/
theorem add_task_append_of_all_le (queue : List Task) (task : Task)
    (h : ∀ a ∈ queue, Task.lt task a = false) :
    add_task queue task = queue ++ [task] := by
  have hpos : bisect_right queue task = queue.length :=
    bisect_right_all_le queue task
      (fun i hi => h (queue.get ⟨i, hi⟩) (queue.get_mem i hi))
  simp [add_task, hpos]

theorem foldl_add_task_all_equiv (ts : List Task) :
    ∀ queue : List Task,
      (∀ a ∈ queue, ∀ b ∈ ts, Task.lt b a = false) →
      ts.Pairwise (fun a b => Task.lt b a = false) →
      List.foldl add_task queue ts = queue ++ ts := by
  induction ts with
  | nil => intro queue _ _; simp
  | cons t ts ih =>
    intro queue hq hts
    rw [List.pairwise_cons] at hts
    have happ : add_task queue t = queue ++ [t] :=
      add_task_append_of_all_le queue t
        (fun a ha => hq a ha t (List.mem_cons_self _ _))
    have hq' : ∀ a ∈ queue ++ [t], ∀ b ∈ ts, Task.lt b a = false := by
      intro a ha b hb
      rcases List.mem_append.mp ha with ha | ha
      · exact hq a ha b (List.mem_cons_of_mem _ hb)
      · rcases List.mem_singleton.mp ha with rfl
        exact hts.1 b hb
    calc List.foldl add_task queue (t :: ts)
        = List.foldl add_task (add_task queue t) ts := rfl
      _ = (queue ++ [t]) ++ ts := by rw [happ]; exact ih _ hq' hts.2
      _ = queue ++ t :: ts := by simp

/-! ### The claims -/

/-- Claim C3: whenever `get_task(available)` returns a task, that task's
resource requirement is dominated by `available`: every dimension of the
requirement is at most the corresponding dimension of `available`. -/
theorem claim_C3 (queue : List Task) (ar : Resources) (t : Task)
    (h : (get_task queue ar).1 = some t) :
    t.resources.satisfy ar = true ∧
    t.resources.ram ≤ ar.ram ∧ t.resources.cpu_cores ≤ ar.cpu_cores ∧
    t.resources.gpu_count ≤ ar.gpu_count := by
  obtain ⟨i, hi, hget, hsnd, hsat, hafter⟩ := get_task_some_spec h
  refine ⟨hsat, ?_⟩
  simpa [Resources.satisfy, and_assoc] using hsat

theorem claim_C3_witness :
    wTaskA.resources.satisfy wAvail = true ∧
    wTaskA.resources.ram ≤ wAvail.ram ∧
    wTaskA.resources.cpu_cores ≤ wAvail.cpu_cores ∧
    wTaskA.resources.gpu_count ≤ wAvail.gpu_count :=
  claim_C3 [wTaskA] wAvail wTaskA (by decide)

/-- Claim C5: `get_task` on an empty queue returns `none`, and `get_task`
when no stored task's requirement is dominated by the available vector also
returns `none` and leaves the queue exactly unchanged; the absent outcome is
an ordinary optional return value of the total function `get_task`, not an
error. -/
theorem claim_C5 :
    (∀ ar : Resources, get_task [] ar = (none, [])) ∧
    (∀ (queue : List Task) (ar : Resources),
      (∀ t ∈ queue, t.resources.satisfy ar = false) →
      get_task queue ar = (none, queue)) :=
  ⟨fun _ => rfl, fun _ _ h => get_task_of_all_false h⟩

theorem claim_C5_witness :
    get_task [wTaskA] cexAvail = (none, [wTaskA]) :=
  claim_C5.2 [wTaskA] cexAvail (by decide)

/-- Claim C6: `satisfy(required, available)` is true exactly when every
dimension of `required` is at most the corresponding dimension of
`available`, with negative quantities compared numerically (the fields
range over all of `Int`). -/
theorem claim_C6 (required available : Resources) :
    required.satisfy available = true ↔
      required.ram ≤ available.ram ∧
      required.cpu_cores ≤ available.cpu_cores ∧
      required.gpu_count ≤ available.gpu_count := by
  simp [Resources.satisfy, and_assoc]

/-- Claim C7: the `Resources` ordering comparison holds exactly when the
magnitude (sum of the dimension values) is strictly smaller, so two vectors
of equal magnitude but different composition are order-equivalent. -/
theorem claim_C7 (a b : Resources) :
    (Resources.lt a b = true ↔ a.sumTuple < b.sumTuple) ∧
    (a.sumTuple = b.sumTuple →
      Resources.lt a b = false ∧ Resources.lt b a = false) := by
  constructor
  · simp [Resources.lt]
  · intro h
    simp [Resources.lt, h]

theorem claim_C7_witness :
    Resources.lt cexRes1 cexRes2 = false ∧ Resources.lt cexRes2 cexRes1 = false :=
  (claim_C7 cexRes1 cexRes2).2 (by decide)

/-- Claim C10: neither `add_task` nor `get_task` alters any task: the new
queue after `add_task` is, as a multiset, exactly the old tasks plus the
inserted one; the task returned by `get_task` is field-for-field one of the
stored tasks, and the stored tasks are exactly the returned one plus the
tasks of the remaining queue (unchanged when nothing is returned). -/
theorem claim_C10 :
    (∀ (queue : List Task) (task : Task),
      (add_task queue task).Perm (task :: queue)) ∧
    (∀ (queue : List Task) (ar : Resources) (t : Task),
      (get_task queue ar).1 = some t →
      t ∈ queue ∧ queue.Perm (t :: (get_task queue ar).2)) ∧
    (∀ (queue : List Task) (ar : Resources),
      (get_task queue ar).1 = none → (get_task queue ar).2 = queue) := by
  refine ⟨add_task_perm, fun queue ar t h => ?_, fun queue ar h => get_task_none_queue h⟩
  have hperm := get_task_some_perm h
  exact ⟨hperm.mem_iff.mpr (List.mem_cons_self _ _), hperm⟩

theorem claim_C10_witness :
    (add_task [wTaskA] wTaskB).Perm (wTaskB :: [wTaskA]) ∧
    (wTaskA ∈ [wTaskA] ∧
      ([wTaskA] : List Task).Perm (wTaskA :: (get_task [wTaskA] wAvail).2)) ∧
    (get_task [wTaskA] cexAvail).2 = [wTaskA] :=
  ⟨claim_C10.1 [wTaskA] wTaskB,
   claim_C10.2.1 [wTaskA] wAvail wTaskA (by decide),
   claim_C10.2.2 [wTaskA] cexAvail (by decide)⟩

/-- Claim C1: on a sorted queue, if some stored task's requirement is
dominated by the available vector, then `get_task` returns the fitting task
closest to the back of the sequence and removes it at its index; no task at
a strictly larger index (closer to the back) also fits. -/
theorem claim_C1 (queue : List Task) (ar : Resources)
    (_hs : List.Sorted TaskLE queue)
    (hex : ∃ t ∈ queue, t.resources.satisfy ar = true) :
    ∃ t i, ∃ hi : i < queue.length,
      (get_task queue ar).1 = some t ∧
      (get_task queue ar).2 = queue.eraseIdx i ∧
      queue.get ⟨i, hi⟩ = t ∧
      t.resources.satisfy ar = true ∧
      ∀ j, ∀ hj : j < queue.length, i < j →
        (queue.get ⟨j, hj⟩).resources.satisfy ar = false := by
  rcases hfst : (get_task queue ar).1 with _ | t
  · obtain ⟨t, ht, hsat⟩ := hex
    rw [get_task_none_satisfy hfst t ht] at hsat
    simp at hsat
  · obtain ⟨i, hi, hget, hsnd, hsat, hafter⟩ := get_task_some_spec hfst
    exact ⟨t, i, hi, rfl, hsnd, hget, hsat, hafter⟩

theorem claim_C1_witness :
    ∃ t i, ∃ hi : i < ([wTaskA, wTaskB] : List Task).length,
      (get_task [wTaskA, wTaskB] wAvail).1 = some t ∧
      (get_task [wTaskA, wTaskB] wAvail).2 = ([wTaskA, wTaskB] : List Task).eraseIdx i ∧
      ([wTaskA, wTaskB] : List Task).get ⟨i, hi⟩ = t ∧
      t.resources.satisfy wAvail = true ∧
      ∀ j, ∀ hj : j < ([wTaskA, wTaskB] : List Task).length, i < j →
        (([wTaskA, wTaskB] : List Task).get ⟨j, hj⟩).resources.satisfy wAvail = false :=
  claim_C1 [wTaskA, wTaskB] wAvail (by decide) (by decide)

/-- Claim C2: starting from the empty queue, any sequence of `add_task`
calls leaves the internal sequence sorted by the composite key (priority
ascending, then resource magnitude descending among equal priorities), and
this sortedness is preserved by every `add_task` and every `get_task`. -/
theorem claim_C2 :
    (∀ ts : List Task, List.Sorted TaskLE (List.foldl add_task [] ts)) ∧
    (∀ (queue : List Task) (task : Task), List.Sorted TaskLE queue →
      List.Sorted TaskLE (add_task queue task)) ∧
    (∀ (queue : List Task) (ar : Resources), List.Sorted TaskLE queue →
      List.Sorted TaskLE ((get_task queue ar).2)) ∧
    (∀ a b : Task, TaskLE a b ↔ a.priority < b.priority ∨
      (a.priority = b.priority ∧
        b.resources.sumTuple ≤ a.resources.sumTuple)) :=
  ⟨fun ts => foldl_add_task_sorted ts [] List.sorted_nil,
   add_task_sorted, get_task_sorted, taskLE_iff⟩

theorem claim_C2_witness :
    List.Sorted TaskLE (List.foldl add_task [] [wTaskA, wTaskB, cexTask]) ∧
    List.Sorted TaskLE (add_task [wTaskA] wTaskB) ∧
    List.Sorted TaskLE ((get_task [wTaskA, wTaskB] wAvail).2) :=
  ⟨claim_C2.1 [wTaskA, wTaskB, cexTask],
   claim_C2.2.1 [wTaskA] wTaskB (by decide),
   claim_C2.2.2.1 [wTaskA, wTaskB] wAvail (by decide)⟩

/-- Claim C4 counterexample: the same task inserted twice is still present
after a successful `get_task`, so "the returned task is no longer present in
the queue" fails on queues with duplicate entries (which the queue accepts:
it performs no deduplication). -/
theorem claim_C4_counterexample :
    (get_task (List.foldl add_task [] [cexTask, cexTask]) cexAvail).1 = some cexTask ∧
    cexTask ∈ (get_task (List.foldl add_task [] [cexTask, cexTask]) cexAvail).2 := by
  decide

/-- Claim C4 (amended): if `get_task` returns a task, one occurrence of it
is removed at its index, the queue's length drops by exactly one, the
remaining tasks keep their relative order (the new queue is a sublist of the
old), the old queue is exactly the returned task plus the new queue, and —
provided the returned task occurred only once — it is no longer present. -/
theorem claim_C4 (queue : List Task) (ar : Resources) (t : Task)
    (h : (get_task queue ar).1 = some t) :
    (get_task queue ar).2.length + 1 = queue.length ∧
    (get_task queue ar).2.Sublist queue ∧
    queue.Perm (t :: (get_task queue ar).2) ∧
    (queue.count t = 1 → t ∉ (get_task queue ar).2) := by
  have hperm := get_task_some_perm h
  refine ⟨by simpa using hperm.length_eq.symm, get_task_sublist queue ar, hperm, ?_⟩
  intro hcount
  have hc := hperm.count_eq t
  rw [List.count_cons_self] at hc
  have : (get_task queue ar).2.count t = 0 := by omega
  exact List.count_eq_zero.mp this

theorem claim_C4_witness :
    (get_task [wTaskA, wTaskB] wAvail).2.length + 1 =
      ([wTaskA, wTaskB] : List Task).length ∧
    (get_task [wTaskA, wTaskB] wAvail).2.Sublist [wTaskA, wTaskB] ∧
    ([wTaskA, wTaskB] : List Task).Perm
      (wTaskB :: (get_task [wTaskA, wTaskB] wAvail).2) ∧
    (([wTaskA, wTaskB] : List Task).count wTaskB = 1 →
      wTaskB ∉ (get_task [wTaskA, wTaskB] wAvail).2) :=
  claim_C4 [wTaskA, wTaskB] wAvail wTaskB (by decide)

/-- Claim C8: inserting the eight reference tasks in any order yields the
final id-order [1, 6, 2, 3, 4, 7, 8, 5]; against that queue, polling with
available (1, 1, 10) returns task id 2, a subsequent poll with (3, 3, 3)
returns id 5, a further poll with (3, 3, 3) returns id 6, and polling with
(-1, -1, -1) returns the absent result. -/
theorem claim_C8 :
    (∀ p : List Task, p.Perm refTasks →
      (List.foldl add_task [] p).map Task.id = [1, 6, 2, 3, 4, 7, 8, 5]) ∧
    (get_task refQueue ⟨1, 1, 10⟩).1.map Task.id = some 2 ∧
    (get_task refQueue1 ⟨3, 3, 3⟩).1.map Task.id = some 5 ∧
    (get_task refQueue2 ⟨3, 3, 3⟩).1.map Task.id = some 6 ∧
    (get_task refQueue3 ⟨-1, -1, -1⟩).1 = none := by
  refine ⟨?_, by decide, by decide, by decide, by decide⟩
  intro p hp
  have hsorted : List.Sorted TaskLE (List.foldl add_task [] p) :=
    foldl_add_task_sorted p [] List.sorted_nil
  have hperm : (List.foldl add_task [] p).Perm refTasks :=
    (foldl_add_task_perm p []).trans (by simpa using hp)
  have hkeys : refTasks.Pairwise KeyNe := by decide
  have hkeys2 : (List.foldl add_task [] p).Pairwise KeyNe :=
    (List.Perm.pairwise_iff (fun h => keyNe_symm h) hperm).mpr hkeys
  have hlt1 : List.Sorted TaskLT (List.foldl add_task [] p) :=
    sorted_lt_of_sorted_le hsorted hkeys2
  have hlt2 : List.Sorted TaskLT sortedRefQueue := by decide
  have hperm2 : (List.foldl add_task [] p).Perm sortedRefQueue :=
    hperm.trans (by decide : refTasks.Perm sortedRefQueue)
  rw [List.eq_of_perm_of_sorted hperm2 hlt1 hlt2]
  decide

theorem claim_C8_witness :
    (List.foldl add_task [] refTasks).map Task.id = [1, 6, 2, 3, 4, 7, 8, 5] :=
  claim_C8.1 refTasks (List.Perm.refl refTasks)

/-- Claim C9: `add_task` inserts a task after every stored task that is
order-equivalent to it (rightmost equal position), and consequently, when
the queue is built from mutually order-equivalent tasks that all satisfy the
available vector, `get_task` returns the most recently added one. -/
theorem claim_C9 :
    (∀ (queue : List Task) (task : Task), List.Sorted TaskLE queue →
      add_task queue task =
        queue.take (bisect_right queue task) ++
          task :: queue.drop (bisect_right queue task) ∧
      bisect_right queue task ≤ queue.length ∧
      ∀ i, ∀ hi : i < queue.length, TaskEquiv (queue.get ⟨i, hi⟩) task →
        i < bisect_right queue task) ∧
    (∀ (ts : List Task) (ar : Resources) (hne : ts ≠ []),
      ts.Pairwise TaskEquiv →
      (∀ t ∈ ts, t.resources.satisfy ar = true) →
      (get_task (List.foldl add_task [] ts) ar).1 = some (ts.getLast hne)) := by
  constructor
  · intro queue task hs
    refine ⟨rfl, bisect_right_le_length queue task, ?_⟩
    intro i hi hequiv
    by_contra hge
    exact hequiv.2 ((bisect_right_spec queue task hs).2 i hi (by omega))
  · intro ts ar hne hequiv hall
    have hfold : List.foldl add_task [] ts = ts := by
      have := foldl_add_task_all_equiv ts [] (by simp)
        (hequiv.imp (fun h => eq_false_of_ne_true h.2))
      simpa using this
    rw [hfold]
    exact get_task_all_satisfy_last hne hall

theorem claim_C9_witness :
    0 < bisect_right [wTaskA] wTaskB ∧
    (get_task (List.foldl add_task [] [wTaskA, wTaskB]) wAvail).1 = some wTaskB := by
  constructor
  · exact (claim_C9.1 [wTaskA] wTaskB (by decide)).2.2 0 (by decide) (by decide)
  · have h := claim_C9.2 [wTaskA, wTaskB] wAvail (by decide) (by decide) (by decide)
    simpa using h

end PQueue
